import Mathlib

/-!
Verification development for the notification-ai-agent repository.

Part 1 embeds the data-source endpoints of backend-api/server.js.
JavaScript objects are modelled as ordered key/value lists (JsObj), so that
field access on a missing key yields none, the way property access on a
JavaScript object yields undefined.

Part 2 models the notification aggregation pipeline described in the design
document.  The Python module linkedin_sms_agent (state store, scheduler,
fetcher, summarizer, aggregator, notifier) is not present in the repository
snapshot — only its README and the design document describe it — so those
definitions are modelled from the spec, as indicated in their doc comments.
-/

namespace BackendApi

/-- A JavaScript value as stored in the in-memory maps of server.js:
strings, numbers, booleans and null. -/
inductive JsVal where
  | vstr (s : String)
  | vnum (n : Nat)
  | vbool (b : Bool)
  | vnull
deriving DecidableEq

/-- A JavaScript object, as an ordered list of key/value pairs. -/
abbrev JsObj := List (String × JsVal)

/-- Property access `obj.k`: the value at key k, or none (undefined). -/
def getField (o : JsObj) (k : String) : Option JsVal :=
  (o.find? (fun kv => kv.1 == k)).map (fun kv => kv.2)

/-- Property assignment `obj.k = v`: replace in place, or add the key. -/
def setField (o : JsObj) (k : String) (v : JsVal) : JsObj :=
  if o.any (fun kv => kv.1 == k) then
    o.map (fun kv => if kv.1 == k then (k, v) else kv)
  else o ++ [(k, v)]

/-- JavaScript strict equality `x === s` between a possibly-undefined
property value and a string: true only when the value is that string. -/
def jsStrictEqStr (v : Option JsVal) (s : String) : Bool :=
  match v with
  | some (JsVal.vstr t) => t == s
  | _ => false

/-- The rest-spread `const (\x7b password, ...rest \x7d) = source` used by the
data-source endpoints: every field except password. -/
def omitPassword (o : JsObj) : JsObj :=
  o.filter (fun kv => kv.1 != "password")

/-- The `dataSources` Map of server.js: source id to source object,
in insertion order. -/
abbrev SourceMap := List (String × JsObj)

/-- `Map.get`. -/
def mapGet (m : SourceMap) (k : String) : Option JsObj :=
  (m.find? (fun kv => kv.1 == k)).map (fun kv => kv.2)

/-- `Map.set`: replace the value at an existing key in place, else append. -/
def mapSet (m : SourceMap) (k : String) (v : JsObj) : SourceMap :=
  if m.any (fun kv => kv.1 == k) then
    m.map (fun kv => if kv.1 == k then (k, v) else kv)
  else m ++ [(k, v)]

/-- `Map.delete`. -/
def mapDelete (m : SourceMap) (k : String) : SourceMap :=
  m.filter (fun kv => kv.1 != k)

/-- Does the first character list start with the second one? -/
def listStartsWith : List Char → List Char → Bool
  | [], _ => true
  | _ :: _, [] => false
  | p :: ps, c :: cs => p == c && listStartsWith ps cs

/-- Does the second character list occur contiguously in the first one? -/
def listHasInfix (pat : List Char) : List Char → Bool
  | [] => listStartsWith pat []
  | c :: rest => listStartsWith pat (c :: rest) || listHasInfix pat rest

/-- JavaScript `s.includes(pat)`: substring containment. -/
def strContains (s pat : String) : Bool :=
  listHasInfix pat.data s.data

/-- The host auto-detection of POST /api/data-sources (server.js lines
328-340), for requests whose host is absent or falsy: gmail, outlook/hotmail
and yahoo get fixed IMAP hosts, otherwise `imap.` is prepended to
`email.split('@')[1]` (which stringifies to "undefined" when the address
has no `@`). -/
def autoDetectHost (email : String) : String :=
  if strContains email "@gmail.com" then "imap.gmail.com"
  else if strContains email "@outlook.com" || strContains email "@hotmail.com" then
    "imap-mail.outlook.com"
  else if strContains email "@yahoo.com" then "imap.mail.yahoo.com"
  else
    match (email.splitOn "@").get? 1 with
    | some d => "imap." ++ d
    | none => "imap.undefined"

/-- Request body of POST /api/data-sources.  Absent fields are none. -/
structure CreateSourceReq where
  email : String
  password : String
  host : Option String
  port : Option Nat
  use_ssl : Option Bool
  source_type : Option String

/-- The source object built by POST /api/data-sources (server.js lines
318-357), given the requester's userId, the generated source id and the
current timestamp.  Returns none when email or password is falsy (the 400
branch).  `port || 993` and `source_type || 'email'` treat 0 and the empty
string as falsy; `use_ssl !== false` is true unless use_ssl is exactly
false. -/
def createDataSource (req : CreateSourceReq) (uid sid now : String) : Option JsObj :=
  if req.email = "" || req.password = "" then none
  else
    some [("source_id", JsVal.vstr sid),
          ("user_id", JsVal.vstr uid),
          ("source_type", JsVal.vstr
            (match req.source_type with
             | some t => if t = "" then "email" else t
             | none => "email")),
          ("email", JsVal.vstr req.email.toLower),
          ("password", JsVal.vstr req.password),
          ("host", JsVal.vstr
            (match req.host with
             | some h => if h = "" then autoDetectHost req.email else h
             | none => autoDetectHost req.email)),
          ("port", JsVal.vnum
            (match req.port with
             | some p => if p = 0 then 993 else p
             | none => 993)),
          ("use_ssl", JsVal.vbool (decide (req.use_ssl ≠ some false))),
          ("status", JsVal.vstr "active"),
          ("created_at", JsVal.vstr now),
          ("last_sync_at", JsVal.vnull)]

/-- POST /api/data-sources: store the new source and answer with the object
minus its password.  none means the 400 response (no store change). -/
def postDataSource (m : SourceMap) (req : CreateSourceReq) (uid sid now : String) :
    SourceMap × Option JsObj :=
  match createDataSource req uid sid now with
  | none => (m, none)
  | some obj => (mapSet m sid obj, some (omitPassword obj))

/-- GET /api/data-sources (server.js lines 304-315): filter the stored
sources on `ds.userId === userId` — note the property read is `userId`,
while created sources carry the key `user_id` — then strip passwords. -/
def listDataSources (m : SourceMap) (uid : String) : List JsObj :=
  ((m.map (fun kv => kv.2)).filter
      (fun ds => jsStrictEqStr (getField ds "userId") uid)).map omitPassword

/-- The ownership check shared by the test/update/delete endpoints:
`!source || source.user_id !== userId` yields the 404 branch (none). -/
def ownedSource (m : SourceMap) (uid id : String) : Option JsObj :=
  match mapGet m id with
  | none => none
  | some src =>
    if jsStrictEqStr (getField src "user_id") uid then some src else none

/-- Request body of PUT /api/data-sources/:id.  Absent fields are none. -/
structure UpdateSourceReq where
  status : Option String
  host : Option String
  port : Option Nat
  use_ssl : Option Bool
  password : Option String

/-- PUT /api/data-sources/:id (server.js lines 393-417): 404 when the id
is absent or owned by another user (store unchanged), else update the
defined fields and answer without the password. -/
def putDataSource (m : SourceMap) (uid id : String) (req : UpdateSourceReq) :
    SourceMap × Nat × Option JsObj :=
  match ownedSource m uid id with
  | none => (m, 404, none)
  | some src =>
    let s1 := match req.status with
      | some v => setField src "status" (JsVal.vstr v)
      | none => src
    let s2 := match req.host with
      | some v => setField s1 "host" (JsVal.vstr v)
      | none => s1
    let s3 := match req.port with
      | some v => setField s2 "port" (JsVal.vnum v)
      | none => s2
    let s4 := match req.use_ssl with
      | some v => setField s3 "use_ssl" (JsVal.vbool v)
      | none => s3
    let s5 := match req.password with
      | some v => setField s4 "password" (JsVal.vstr v)
      | none => s4
    (mapSet m id s5, 200, some (omitPassword s5))

/-- DELETE /api/data-sources/:id (server.js lines 420-435): 404 when the
id is absent or owned by another user (store unchanged), else remove it. -/
def deleteDataSource (m : SourceMap) (uid id : String) : SourceMap × Nat :=
  match ownedSource m uid id with
  | none => (m, 404)
  | some _ => (mapDelete m id, 200)

/-- POST /api/data-sources/:id/test (server.js lines 369-390): only the
ownership check matters for the store; the endpoint never mutates it.
Returns the HTTP status. -/
def testDataSource (m : SourceMap) (uid id : String) : Nat :=
  match ownedSource m uid id with
  | none => 404
  | some _ => 200

/-- A user id as produced by signup (the lowercased email). -/
def aliceId : String := "alice@example.com"

/-- A minimal valid create request. -/
def demoReq : CreateSourceReq :=
  { email := "a@gmail.com", password := "pw", host := none, port := none,
    use_ssl := none, source_type := none }

/-- The source map after aliceId creates one source. -/
def demoStore : SourceMap :=
  (postDataSource [] demoReq aliceId "id1" "2024-01-01T00:00:00Z").1

end BackendApi

namespace Pipeline

/-- Modelled from the spec: the SeenItem row of the State Store
(linkedin_sms_agent/db.py is absent from the snapshot), §3 of the design:
id, source, first_seen_at with composite uniqueness on (id, source). -/
structure SeenItem where
  id : String
  source : String
  first_seen_at : Nat
deriving DecidableEq

/-- Modelled from the spec: the durable state owned by the State Store —
the seen_items rows and the last_run metadata entry. -/
structure StoreState where
  seen : List SeenItem
  lastRun : Option Nat
deriving DecidableEq

/-- Modelled from the spec: the transient CandidateItem produced by the
Source Fetcher, §3. -/
structure CandidateItem where
  id : String
  source : String
  account_label : String
  sender : String
  subject_or_title : String
  body_excerpt : String
  occurred_at : Nat
deriving DecidableEq

/-- Modelled from the spec: the transient ItemSummary, §3.  It carries
occurred_at because the Aggregator (§4.6) orders each group by it. -/
structure ItemSummary where
  item_id : String
  source : String
  account_label : String
  summary_text : String
  ok : Bool
  occurred_at : Nat
deriving DecidableEq

/-- Modelled from the spec: State Store `hasSeen(id, source)`, §4.1. -/
def hasSeen (st : StoreState) (id source : String) : Bool :=
  st.seen.any (fun r => r.id == id && r.source == source)

/-- Is the (id, source) key of the second row already present? -/
def keyPresent (rows : List SeenItem) (r : SeenItem) : Bool :=
  rows.any (fun q => q.id == r.id && q.source == r.source)

/-- Modelled from the spec: State Store `markSeen(batch)`, §4.1 — the whole
batch is committed in one transaction; a row whose (id, source) key is
already present is not inserted again (composite uniqueness, §3). -/
def markSeen (st : StoreState) (batch : List SeenItem) : StoreState :=
  { st with
    seen := batch.foldl
      (fun acc r => if keyPresent acc r then acc else acc ++ [r]) st.seen }

/-- Modelled from the spec: State Store `setLastRun(timestamp)`, §4.1. -/
def setLastRun (st : StoreState) (t : Nat) : StoreState :=
  { st with lastRun := some t }

/-- Modelled from the spec: State Store `resetSeen(source)`, §4.1 — remove
exactly the rows of one source label and report how many were removed. -/
def resetSeen (st : StoreState) (source : String) : StoreState × Nat :=
  ({ st with seen := st.seen.filter (fun r => r.source != source) },
   (st.seen.filter (fun r => r.source == source)).length)

/-- Modelled from the spec: one source's fetch outcome as seen through the
per-source isolation wrapper of §4.3 — either its items or a caught error. -/
inductive FetchResult where
  | ok (items : List CandidateItem)
  | err (msg : String)

/-- Modelled from the spec: the Source Fetcher, §4.3 — every configured
source is mapped to (items, no error) or to (no items, its error); a
failing source never prevents the others from being fetched. -/
def fetchAll (sources : List String) (fetch : String → FetchResult) :
    List (String × List CandidateItem × Option String) :=
  sources.map (fun s =>
    match fetch s with
    | FetchResult.ok items => (s, items, none)
    | FetchResult.err m => (s, [], some m))

/-- Modelled from the spec: the Deduplicator, §4.4 — keep only unseen
candidates; the store is returned unchanged because this step is read-only
against it. -/
def dedupStep (st : StoreState) (items : List CandidateItem) :
    List CandidateItem × StoreState :=
  (items.filter (fun it => !(hasSeen st it.id it.source)), st)

/-- Modelled from the spec: the Summarizer's bounded retry, §4.5
("up to 2 retries"). -/
def maxRetries : Nat := 2

/-- Modelled from the spec: issue the call and retry up to maxRetries
times; the oracle gives each attempt's outcome. -/
def retryCall (attempts : Nat → Option String) : Option String :=
  (List.range (maxRetries + 1)).findSome? attempts

/-- Modelled from the spec: the length at which the raw-excerpt fallback is
truncated, §4.5 (the exact bound is unspecified there). -/
def excerptLimit : Nat := 200

/-- Modelled from the spec: the truncated raw excerpt used when retries
exhaust, §4.5. -/
def truncateExcerpt (s : String) : String :=
  s.take excerptLimit

/-- Modelled from the spec: summarize one item, §4.5 — on backend success a
summary with ok true, after exhausted retries an ok-false summary whose
text is the truncated raw excerpt; the item is never dropped. -/
def summarizeItem (attempts : Nat → Option String) (it : CandidateItem) : ItemSummary :=
  match retryCall attempts with
  | some t =>
    { item_id := it.id, source := it.source, account_label := it.account_label,
      summary_text := t, ok := true, occurred_at := it.occurred_at }
  | none =>
    { item_id := it.id, source := it.source, account_label := it.account_label,
      summary_text := truncateExcerpt it.body_excerpt, ok := false,
      occurred_at := it.occurred_at }

/-- Modelled from the spec: summarize every surviving item, §4.5. -/
def summarizeAll (llm : CandidateItem → Nat → Option String)
    (items : List CandidateItem) : List ItemSummary :=
  items.map (fun it => summarizeItem (llm it) it)

/-- Three-way comparison of naturals. -/
def natCmp (a b : Nat) : Ordering :=
  if a < b then Ordering.lt else if b < a then Ordering.gt else Ordering.eq

/-- Three-way lexicographic comparison of lists, given a comparison of
their elements. -/
def cmpList (cmp : α → α → Ordering) : List α → List α → Ordering
  | [], [] => Ordering.eq
  | [], _ :: _ => Ordering.lt
  | _ :: _, [] => Ordering.gt
  | a :: as, b :: bs =>
    match cmp a b with
    | Ordering.eq => cmpList cmp as bs
    | o => o

/-- A string as its list of character code points. -/
def natsOf (s : String) : List Nat :=
  s.data.map Char.toNat

/-- Three-way comparison of strings, by code points. -/
def strCmp (a b : String) : Ordering :=
  cmpList natCmp (natsOf a) (natsOf b)

/-- The canonical aggregation key of a summary: account label first, then
timestamp, then the (item id, source) identity so distinct items compare
apart. -/
def sumKey (s : ItemSummary) : List (List Nat) :=
  [natsOf s.account_label, [s.occurred_at], natsOf s.item_id, natsOf s.source]

/-- The age key used by truncation: timestamp first, then the
(item id, source) identity. -/
def timeKey (s : ItemSummary) : List (List Nat) :=
  [[s.occurred_at], natsOf s.item_id, natsOf s.source]

/-- The canonical aggregation order. -/
def sumCmp (a b : ItemSummary) : Ordering :=
  cmpList (cmpList natCmp) (sumKey a) (sumKey b)

/-- The age order used by truncation. -/
def timeCmp (a b : ItemSummary) : Ordering :=
  cmpList (cmpList natCmp) (timeKey a) (timeKey b)

/-- Non-strict comparison outcome. -/
def cmpLe (o : Ordering) : Bool :=
  match o with
  | Ordering.gt => false
  | _ => true

/-- The Boolean order underlying the canonical aggregation order. -/
def sumLe (a b : ItemSummary) : Bool :=
  cmpLe (sumCmp a b)

/-- The Boolean order underlying the age order. -/
def timeLe (a b : ItemSummary) : Bool :=
  cmpLe (timeCmp a b)

/-- Insert into a list sorted by the given Boolean order. -/
def insertBy (le : ItemSummary → ItemSummary → Bool) (a : ItemSummary) :
    List ItemSummary → List ItemSummary
  | [] => [a]
  | b :: l => if le a b then a :: b :: l else b :: insertBy le a l

/-- Insertion sort by the given Boolean order. -/
def sortBy (le : ItemSummary → ItemSummary → Bool) :
    List ItemSummary → List ItemSummary
  | [] => []
  | a :: l => insertBy le a (sortBy le l)

/-- Modelled from the spec: the Aggregator's deterministic ordering, §4.6
and §5 — group by account_label, each group ordered by occurred_at
ascending, independent of arrival order. -/
def canonSort (l : List ItemSummary) : List ItemSummary :=
  sortBy sumLe l

/-- Sort by age (oldest first), the priority order used by truncation. -/
def sortByTime (l : List ItemSummary) : List ItemSummary :=
  sortBy timeLe l

/-- Modelled from the spec: one rendered report line, §4.6 — one line per
item, fallback items marked as raw excerpts. -/
def renderLine (s : ItemSummary) : String :=
  s.account_label ++ " | " ++ s.summary_text ++
    (if s.ok then "" else " (raw excerpt)") ++ "\n"

/-- Modelled from the spec: a footer note for one failed source, §4.6. -/
def renderErrorNote (e : String × String) : String :=
  "source error " ++ e.1 ++ ": " ++ e.2 ++ "\n"

/-- The rendered length of a list of report lines, the quantity compared
against the channel's length budget. -/
def renderLen (l : List ItemSummary) : Nat :=
  (l.map (fun s => (renderLine s).length)).sum

/-- Keep the first (oldest) of each account label not yet accounted for. -/
def firstPerAccountAux (seen : List String) : List ItemSummary → List ItemSummary
  | [] => []
  | x :: rest =>
    if x.account_label ∈ seen then firstPerAccountAux seen rest
    else x :: firstPerAccountAux (x.account_label :: seen) rest

/-- The first item of each account label in list order. -/
def firstPerAccount (l : List ItemSummary) : List ItemSummary :=
  firstPerAccountAux [] l

/-- Modelled from the spec: the per-account items that truncation tries to
preserve, §4.6 — the newest item of each account (the first of each
account when scanning newest-first). -/
def newestPerAccount (l : List ItemSummary) : List ItemSummary :=
  firstPerAccount l.reverse

/-- Drop items from the front (the oldest first) until the remainder
satisfies the budget test; the first component is what was dropped, the
second what was kept. -/
def splitUntilFit (fits : List ItemSummary → Bool) :
    List ItemSummary → List ItemSummary × List ItemSummary
  | [] => ([], [])
  | x :: rest =>
    if fits (x :: rest) then ([], x :: rest)
    else
      let p := splitUntilFit fits rest
      (x :: p.1, p.2)

/-- The mandatory per-account representatives of a summary list. -/
def mandOf (summaries : List ItemSummary) : List ItemSummary :=
  newestPerAccount (sortByTime summaries)

/-- The droppable items: everything except the mandatory representatives,
oldest first. -/
def extrasOf (summaries : List ItemSummary) : List ItemSummary :=
  (sortByTime summaries).filter (fun x => !(decide (x ∈ mandOf summaries)))

/-- Modelled from the spec: report truncation, §4.6 — truncate to the
channel's length budget, dropping the oldest items first while preserving
at least one item per account if the budget allows.  Returns
(kept, dropped). -/
def truncateByBudget (budget : Nat) (summaries : List ItemSummary) :
    List ItemSummary × List ItemSummary :=
  if renderLen (sortByTime summaries) ≤ budget then (sortByTime summaries, [])
  else if renderLen (mandOf summaries) ≤ budget then
    ((sortByTime summaries).filter
       (fun x => decide (x ∈ mandOf summaries) ||
         decide (x ∈ (splitUntilFit
           (fun l => decide (renderLen (mandOf summaries) + renderLen l ≤ budget))
           (extrasOf summaries)).2)),
     (splitUntilFit
       (fun l => decide (renderLen (mandOf summaries) + renderLen l ≤ budget))
       (extrasOf summaries)).1)
  else
    ((splitUntilFit (fun l => decide (renderLen l ≤ budget)) (sortByTime summaries)).2,
     (splitUntilFit (fun l => decide (renderLen l ≤ budget)) (sortByTime summaries)).1)

/-- Modelled from the spec: the AggregateReport, §3 — the ordered summary
lines, the per-source error list and the rendered text. -/
structure AggregateReport where
  lines : List ItemSummary
  sourceErrors : List (String × String)
  text : String
deriving DecidableEq

/-- Modelled from the spec: the Aggregator's composite report, §4.6 —
canonically ordered lines followed by the footer notes for failed
sources. -/
def mkReport (summaries : List ItemSummary) (errors : List (String × String)) :
    AggregateReport :=
  { lines := canonSort summaries,
    sourceErrors := errors,
    text := String.join ((canonSort summaries).map renderLine) ++
      String.join (errors.map renderErrorNote) }

/-- Modelled from the spec: the Notifier's delivery attempt, §4.7 — the
primary channel, then the secondary one if configured; none means no
secondary channel exists. -/
def deliver (primaryOk : Bool) (secondary : Option Bool) : Bool :=
  primaryOk || (match secondary with | some b => b | none => false)

/-- Modelled from the spec: one invocation's configuration slice, §6. -/
structure RunConfig where
  sources : List String
  budget : Nat
  now : Nat

/-- Modelled from the spec: the run's environment — per-source fetch
outcomes, per-item summarization attempts, the two delivery channels and
whether the State Store write succeeds, §4.3/§4.5/§4.7/§4.1. -/
structure RunOracles where
  fetch : String → FetchResult
  llm : CandidateItem → Nat → Option String
  primaryOk : Bool
  secondary : Option Bool
  storeOk : Bool

/-- Modelled from the spec: a run either reaches the commit point or is
aborted, §4.2/§4.7. -/
inductive RunStatus where
  | committed
  | failed
deriving DecidableEq

/-- Modelled from the spec: everything one invocation produces — its
status, the delivered report if any, the resulting store, and which
summaries were kept in or dropped from the report. -/
structure RunOutcome where
  status : RunStatus
  report : Option AggregateReport
  store : StoreState
  kept : List ItemSummary
  dropped : List ItemSummary

/-- The fetch results of a run. -/
def fetchedOf (cfg : RunConfig) (orc : RunOracles) :
    List (String × List CandidateItem × Option String) :=
  fetchAll cfg.sources orc.fetch

/-- The per-source error list of a run. -/
def fetchErrorsOf (cfg : RunConfig) (orc : RunOracles) : List (String × String) :=
  (fetchedOf cfg orc).filterMap (fun e => e.2.2.map (fun m => (e.1, m)))

/-- All candidate items fetched in a run. -/
def fetchItemsOf (cfg : RunConfig) (orc : RunOracles) : List CandidateItem :=
  ((fetchedOf cfg orc).map (fun e => e.2.1)).flatten

/-- The candidates surviving dedup in a run. -/
def freshOf (cfg : RunConfig) (orc : RunOracles) (st : StoreState) :
    List CandidateItem :=
  (dedupStep st (fetchItemsOf cfg orc)).1

/-- The summaries of a run. -/
def summariesOf (cfg : RunConfig) (orc : RunOracles) (st : StoreState) :
    List ItemSummary :=
  summarizeAll orc.llm (freshOf cfg orc st)

/-- The summaries kept in the report after truncation. -/
def runKept (cfg : RunConfig) (orc : RunOracles) (st : StoreState) :
    List ItemSummary :=
  (truncateByBudget cfg.budget (summariesOf cfg orc st)).1

/-- The summaries dropped by truncation. -/
def runDropped (cfg : RunConfig) (orc : RunOracles) (st : StoreState) :
    List ItemSummary :=
  (truncateByBudget cfg.budget (summariesOf cfg orc st)).2

/-- The batch committed at the commit point: exactly the items included in
the delivered report, §4.7. -/
def runBatch (cfg : RunConfig) (orc : RunOracles) (st : StoreState) :
    List SeenItem :=
  (runKept cfg orc st).map
    (fun s => { id := s.item_id, source := s.source, first_seen_at := cfg.now })

/-- The composite report of a run. -/
def runReport (cfg : RunConfig) (orc : RunOracles) (st : StoreState) :
    AggregateReport :=
  mkReport (runKept cfg orc st) (fetchErrorsOf cfg orc)

/-- Modelled from the spec: one full pipeline invocation past the gate,
§2/§4.7 — fetch, dedup, summarize, aggregate, deliver; on delivery success
commit markSeen for every reported item then setLastRun; on delivery
failure of both channels, or on a store write failure, the run fails and
the store is left unchanged. -/
def runOnce (cfg : RunConfig) (orc : RunOracles) (st : StoreState) : RunOutcome :=
  if deliver orc.primaryOk orc.secondary then
    if orc.storeOk then
      { status := RunStatus.committed,
        report := some (runReport cfg orc st),
        store := setLastRun (markSeen st (runBatch cfg orc st)) cfg.now,
        kept := runKept cfg orc st,
        dropped := runDropped cfg orc st }
    else
      { status := RunStatus.failed,
        report := some (runReport cfg orc st),
        store := st,
        kept := runKept cfg orc st,
        dropped := runDropped cfg orc st }
  else
    { status := RunStatus.failed,
      report := none,
      store := st,
      kept := runKept cfg orc st,
      dropped := runDropped cfg orc st }

/-- Modelled from the spec: the jitter-mode Scheduler Gate's bounds, §4.2. -/
structure GateCfg where
  minGap : Nat
  maxGap : Nat

/-- Modelled from the spec: the jitter-mode gate check, §4.2 — with
elapsed = now - last_run and a drawn target gap, skip when
elapsed < target gap; with no recorded last run, proceed. -/
def gateOpen (draw : Nat) (lastRun : Option Nat) (now : Nat) : Bool :=
  match lastRun with
  | none => true
  | some lr => decide (draw ≤ now - lr)

/-- Modelled from the spec: a gated invocation, §4.2 — a skipped
invocation performs no fetch and no state mutation (no RunOutcome at all);
an executed one is a full runOnce. -/
def invokeGated (draw : Nat) (cfg : RunConfig) (orc : RunOracles)
    (st : StoreState) : Option RunOutcome × StoreState :=
  if gateOpen draw st.lastRun cfg.now then
    let o := runOnce cfg orc st
    (some o, o.store)
  else (none, st)

/-- Modelled from the spec: the operations that can touch the State Store
across invocations — a gated pipeline run or the explicit per-source reset
directive, §6. -/
inductive PipeOp where
  | runOp (cfg : RunConfig) (orc : RunOracles)
  | resetOp (source : String)

/-- The store after one operation. -/
def applyOp (st : StoreState) : PipeOp → StoreState
  | PipeOp.runOp cfg orc => (runOnce cfg orc st).store
  | PipeOp.resetOp src => (resetSeen st src).1

/-- The store and the delivered reports after a sequence of operations. -/
def applyOps (st : StoreState) : List PipeOp → StoreState × List AggregateReport
  | [] => (st, [])
  | PipeOp.runOp cfg orc :: ops =>
    let o := runOnce cfg orc st
    let p := applyOps o.store ops
    (p.1, (match o.report with | some r => [r] | none => []) ++ p.2)
  | PipeOp.resetOp src :: ops =>
    applyOps (resetSeen st src).1 ops

/-- The composite-uniqueness invariant of §3: no (id, source) key occurs
twice among the seen rows. -/
def goodKeys (st : StoreState) : Prop :=
  st.seen.Pairwise (fun a b => ¬(a.id = b.id ∧ a.source = b.source))

/-- The store states reachable from the empty initial store through the
pipeline's operations. -/
inductive Reachable : StoreState → Prop
  | init : Reachable { seen := [], lastRun := none }
  | step (st : StoreState) (op : PipeOp) :
      Reachable st → Reachable (applyOp st op)

/-- A concrete candidate item used by witnesses. -/
def demoItem : CandidateItem :=
  { id := "m1", source := "email", account_label := "a1", sender := "s",
    subject_or_title := "t", body_excerpt := "b", occurred_at := 10 }

/-- A concrete run configuration used by witnesses. -/
def demoCfg : RunConfig :=
  { sources := ["email"], budget := 1000, now := 100 }

/-- A concrete healthy environment used by witnesses. -/
def demoOrc : RunOracles :=
  { fetch := fun _ => FetchResult.ok [demoItem],
    llm := fun _ _ => some "sum",
    primaryOk := true, secondary := none, storeOk := true }

/-- The same environment with both delivery channels failing. -/
def demoOrcFailDelivery : RunOracles :=
  { demoOrc with primaryOk := false, secondary := some false }

/-- The empty initial store. -/
def emptyStore : StoreState :=
  { seen := [], lastRun := none }

/-- A store that has already committed the item (m1, email). -/
def seededStore : StoreState :=
  { seen := [{ id := "m1", source := "email", first_seen_at := 5 }],
    lastRun := none }

/-- A store whose last run happened at time 50. -/
def seededGateStore : StoreState :=
  { seen := [], lastRun := some 50 }

/-- A concrete item summary used by witnesses. -/
def demoSummary : ItemSummary :=
  { item_id := "m1", source := "email", account_label := "a1",
    summary_text := "sum", ok := true, occurred_at := 10 }

/-- A second, older item summary used by witnesses. -/
def demoSummary2 : ItemSummary :=
  { item_id := "m2", source := "email", account_label := "a1",
    summary_text := "sum2", ok := false, occurred_at := 7 }

end Pipeline

namespace BackendApi

/-- C9: evaluation of the data-source endpoints at a failing input.  After
the user aliceId creates one source, the store holds that source with its
user_id field equal to aliceId, yet GET /api/data-sources for aliceId
returns the empty list: the endpoint filters on the property `userId`,
which no stored source possesses (they carry `user_id`), so the claim that
the list endpoint returns exactly the requester's sources fails. -/
theorem C9_list_endpoint_eval :
    ∃ ds, mapGet demoStore "id1" = some ds
      ∧ getField ds "user_id" = some (JsVal.vstr aliceId)
      ∧ getField ds "userId" = none
      ∧ listDataSources demoStore aliceId = [] := by
  exact ⟨_, rfl, rfl, rfl, rfl⟩

/-- C10: a create-data-source request that omits the host stores the IMAP
host computed from the email address alone — imap.gmail.com for addresses
containing @gmail.com, imap-mail.outlook.com for @outlook.com or
@hotmail.com, imap.mail.yahoo.com for @yahoo.com, and otherwise imap.
prepended to the domain part — and the created source defaults its port to
993 when omitted, sets use_ssl true unless it is explicitly false, status
active and last_sync_at null. -/
theorem C10_created_source_defaults (req : CreateSourceReq) (uid sid now : String)
    (hhost : req.host = none) (hemail : req.email ≠ "") (hpw : req.password ≠ "") :
    ∃ obj, createDataSource req uid sid now = some obj
      ∧ getField obj "host" = some (JsVal.vstr (autoDetectHost req.email))
      ∧ (strContains req.email "@gmail.com" = true →
          autoDetectHost req.email = "imap.gmail.com")
      ∧ (strContains req.email "@gmail.com" = false →
         (strContains req.email "@outlook.com" || strContains req.email "@hotmail.com") = true →
          autoDetectHost req.email = "imap-mail.outlook.com")
      ∧ (strContains req.email "@gmail.com" = false →
         strContains req.email "@outlook.com" = false →
         strContains req.email "@hotmail.com" = false →
         strContains req.email "@yahoo.com" = true →
          autoDetectHost req.email = "imap.mail.yahoo.com")
      ∧ (∀ loc dom,
         strContains req.email "@gmail.com" = false →
         strContains req.email "@outlook.com" = false →
         strContains req.email "@hotmail.com" = false →
         strContains req.email "@yahoo.com" = false →
         req.email.splitOn "@" = [loc, dom] →
          autoDetectHost req.email = "imap." ++ dom)
      ∧ (req.port = none → getField obj "port" = some (JsVal.vnum 993))
      ∧ (req.use_ssl ≠ some false → getField obj "use_ssl" = some (JsVal.vbool true))
      ∧ (req.use_ssl = some false → getField obj "use_ssl" = some (JsVal.vbool false))
      ∧ getField obj "status" = some (JsVal.vstr "active")
      ∧ getField obj "last_sync_at" = some JsVal.vnull := by
  refine ⟨[("source_id", JsVal.vstr sid),
          ("user_id", JsVal.vstr uid),
          ("source_type", JsVal.vstr
            (match req.source_type with
             | some t => if t = "" then "email" else t
             | none => "email")),
          ("email", JsVal.vstr req.email.toLower),
          ("password", JsVal.vstr req.password),
          ("host", JsVal.vstr (autoDetectHost req.email)),
          ("port", JsVal.vnum
            (match req.port with
             | some p => if p = 0 then 993 else p
             | none => 993)),
          ("use_ssl", JsVal.vbool (decide (req.use_ssl ≠ some false))),
          ("status", JsVal.vstr "active"),
          ("created_at", JsVal.vstr now),
          ("last_sync_at", JsVal.vnull)],
    ?_, rfl, ?_, ?_, ?_, ?_, ?_, ?_, ?_, rfl, rfl⟩
  · simp only [createDataSource, hhost]
    simp [hemail, hpw]
  · intro h1
    simp [autoDetectHost, h1]
  · intro h1 h2
    simp [autoDetectHost, h1, h2]
  · intro h1 h2 h3 h4
    simp [autoDetectHost, h1, h2, h3, h4]
  · intro loc dom h1 h2 h3 h4 h5
    simp [autoDetectHost, h1, h2, h3, h4, h5]
  · intro hport
    simp only [hport]
    rfl
  · intro hssl
    have hd : decide (req.use_ssl ≠ some false) = true := by
      simp [hssl]
    simp only [hd]
    rfl
  · intro hssl
    have hd : decide (req.use_ssl ≠ some false) = false := by
      simp [hssl]
    simp only [hd]
    rfl

/-- Witness for C10 at a concrete request: a gmail address with host,
port and use_ssl omitted. -/
theorem C10_created_source_defaults_witness :
    demoReq.host = none ∧ demoReq.email ≠ "" ∧ demoReq.password ≠ ""
    ∧ (∃ obj, createDataSource demoReq "u1" "s1" "t1" = some obj
        ∧ getField obj "host" = some (JsVal.vstr (autoDetectHost demoReq.email))
        ∧ getField obj "port" = some (JsVal.vnum 993)
        ∧ getField obj "use_ssl" = some (JsVal.vbool true)
        ∧ getField obj "status" = some (JsVal.vstr "active")
        ∧ getField obj "last_sync_at" = some JsVal.vnull
        ∧ autoDetectHost demoReq.email = "imap.gmail.com") := by
  refine ⟨rfl, by decide, by decide, ?_⟩
  obtain ⟨obj, hcreate, hhost, hg, _, _, _, hport, hssl, _, hstat, hnull⟩ :=
    C10_created_source_defaults demoReq "u1" "s1" "t1" rfl (by decide) (by decide)
  exact ⟨obj, hcreate, hhost, hport rfl, hssl (by decide), hstat, hnull, hg (by decide)⟩

end BackendApi

namespace Pipeline

theorem natCmp_eq_iff {a b : Nat} : natCmp a b = Ordering.eq ↔ a = b := by
  unfold natCmp
  split_ifs <;> simp <;> omega

theorem natCmp_lt_iff {a b : Nat} : natCmp a b = Ordering.lt ↔ a < b := by
  unfold natCmp
  split_ifs <;> simp <;> omega

theorem natCmp_swap (a b : Nat) : (natCmp a b).swap = natCmp b a := by
  unfold natCmp
  split_ifs <;> first | rfl | omega

theorem natCmp_lt_trans {a b c : Nat} (h1 : natCmp a b = Ordering.lt)
    (h2 : natCmp b c = Ordering.lt) : natCmp a c = Ordering.lt := by
  rw [natCmp_lt_iff] at h1 h2 ⊢
  omega

theorem cmpList_eq_iff {α : Type} {cmp : α → α → Ordering}
    (heq : ∀ a b, cmp a b = Ordering.eq ↔ a = b) :
    ∀ {s t : List α}, cmpList cmp s t = Ordering.eq ↔ s = t := by
  intro s
  induction s with
  | nil => intro t; cases t <;> simp [cmpList]
  | cons a as ih =>
    intro t
    cases t with
    | nil => simp [cmpList]
    | cons b bs =>
      simp only [cmpList]
      cases h : cmp a b with
      | lt =>
        refine iff_of_false (by simp) ?_
        intro hh
        injection hh with h1 h2
        subst h1
        rw [(heq a a).mpr rfl] at h
        cases h
      | gt =>
        refine iff_of_false (by simp) ?_
        intro hh
        injection hh with h1 h2
        subst h1
        rw [(heq a a).mpr rfl] at h
        cases h
      | eq =>
        have hab := (heq a b).mp h
        subst hab
        simp [ih]

theorem cmpList_swap {α : Type} {cmp : α → α → Ordering}
    (hswap : ∀ a b, (cmp a b).swap = cmp b a) :
    ∀ {s t : List α}, (cmpList cmp s t).swap = cmpList cmp t s := by
  intro s
  induction s with
  | nil => intro t; cases t <;> simp [cmpList, Ordering.swap]
  | cons a as ih =>
    intro t
    cases t with
    | nil => simp [cmpList, Ordering.swap]
    | cons b bs =>
      simp only [cmpList]
      cases h : cmp a b with
      | lt =>
        have hba : cmp b a = Ordering.gt := by rw [← hswap a b, h]; rfl
        rw [hba]
        rfl
      | gt =>
        have hba : cmp b a = Ordering.lt := by rw [← hswap a b, h]; rfl
        rw [hba]
        rfl
      | eq =>
        have hba : cmp b a = Ordering.eq := by rw [← hswap a b, h]; rfl
        rw [hba]
        exact ih

theorem cmpList_lt_trans {α : Type} {cmp : α → α → Ordering}
    (heq : ∀ a b, cmp a b = Ordering.eq ↔ a = b)
    (htr : ∀ {a b c}, cmp a b = Ordering.lt → cmp b c = Ordering.lt →
      cmp a c = Ordering.lt) :
    ∀ {s t u : List α}, cmpList cmp s t = Ordering.lt →
      cmpList cmp t u = Ordering.lt → cmpList cmp s u = Ordering.lt := by
  intro s
  induction s with
  | nil =>
    intro t u h1 h2
    cases t with
    | nil => exact h2
    | cons b bs =>
      cases u with
      | nil => cases h2
      | cons c cs => simp [cmpList]
  | cons a as ih =>
    intro t u h1 h2
    cases t with
    | nil => cases h1
    | cons b bs =>
      cases u with
      | nil => cases h2
      | cons c cs =>
        simp only [cmpList] at h1 h2 ⊢
        cases hab : cmp a b with
        | gt => rw [hab] at h1; cases h1
        | eq =>
          have := (heq a b).mp hab
          subst this
          rw [hab] at h1
          cases hbc : cmp a c with
          | lt => rfl
          | eq =>
            rw [hbc] at h2
            exact ih h1 h2
          | gt =>
            rw [hbc] at h2
            cases h2
        | lt =>
          cases hbc : cmp b c with
          | gt => rw [hbc] at h2; cases h2
          | eq =>
            have := (heq b c).mp hbc
            subst this
            rw [hab]
          | lt => rw [htr hab hbc]

theorem cmpLe_swap_or (o : Ordering) : cmpLe o = true ∨ cmpLe o.swap = true := by
  cases o <;> simp [cmpLe, Ordering.swap]

theorem cmpLe_both {o : Ordering} (h1 : cmpLe o = true) (h2 : cmpLe o.swap = true) :
    o = Ordering.eq := by
  cases o <;> simp_all [cmpLe, Ordering.swap]

theorem cmpLe_trans_of {α : Type} {cmp : α → α → Ordering}
    (heq : ∀ a b, cmp a b = Ordering.eq ↔ a = b)
    (htr : ∀ {a b c}, cmp a b = Ordering.lt → cmp b c = Ordering.lt →
      cmp a c = Ordering.lt)
    {a b c : α} (h1 : cmpLe (cmp a b) = true) (h2 : cmpLe (cmp b c) = true) :
    cmpLe (cmp a c) = true := by
  cases hab : cmp a b with
  | gt => rw [hab] at h1; cases h1
  | eq =>
    have := (heq a b).mp hab
    subst this
    exact h2
  | lt =>
    cases hbc : cmp b c with
    | gt => rw [hbc] at h2; cases h2
    | eq =>
      have := (heq b c).mp hbc
      subst this
      rw [hab]
      rfl
    | lt => rw [htr hab hbc]; rfl

theorem natListCmp_eq_iff {s t : List Nat} :
    cmpList natCmp s t = Ordering.eq ↔ s = t :=
  cmpList_eq_iff (fun _ _ => natCmp_eq_iff)

theorem natListCmp_swap (s t : List Nat) :
    (cmpList natCmp s t).swap = cmpList natCmp t s :=
  cmpList_swap natCmp_swap

theorem natListCmp_lt_trans {s t u : List Nat}
    (h1 : cmpList natCmp s t = Ordering.lt)
    (h2 : cmpList natCmp t u = Ordering.lt) :
    cmpList natCmp s u = Ordering.lt :=
  cmpList_lt_trans (fun _ _ => natCmp_eq_iff) (fun ha hb => natCmp_lt_trans ha hb) h1 h2

theorem keyCmp_eq_iff {s t : List (List Nat)} :
    cmpList (cmpList natCmp) s t = Ordering.eq ↔ s = t :=
  cmpList_eq_iff (fun _ _ => natListCmp_eq_iff)

theorem keyCmp_swap (s t : List (List Nat)) :
    (cmpList (cmpList natCmp) s t).swap = cmpList (cmpList natCmp) t s :=
  cmpList_swap natListCmp_swap

theorem keyCmp_lt_trans {s t u : List (List Nat)}
    (h1 : cmpList (cmpList natCmp) s t = Ordering.lt)
    (h2 : cmpList (cmpList natCmp) t u = Ordering.lt) :
    cmpList (cmpList natCmp) s u = Ordering.lt :=
  cmpList_lt_trans (fun _ _ => natListCmp_eq_iff)
    (fun ha hb => natListCmp_lt_trans ha hb) h1 h2

theorem natsOf_inj {s t : String} (h : natsOf s = natsOf t) : s = t := by
  have hd : s.data = t.data :=
    List.map_injective_iff.mpr
      (fun a b hab => Char.ext (UInt32.toNat.inj hab)) h
  exact String.ext hd

theorem sumCmp_swap (a b : ItemSummary) : (sumCmp a b).swap = sumCmp b a :=
  keyCmp_swap (sumKey a) (sumKey b)

theorem timeCmp_swap (a b : ItemSummary) : (timeCmp a b).swap = timeCmp b a :=
  keyCmp_swap (timeKey a) (timeKey b)

theorem sumLe_total (a b : ItemSummary) : (sumLe a b || sumLe b a) = true := by
  rcases cmpLe_swap_or (sumCmp a b) with h | h
  · simp [sumLe, h]
  · rw [sumCmp_swap] at h
    simp [sumLe, h]

theorem timeLe_total (a b : ItemSummary) : (timeLe a b || timeLe b a) = true := by
  rcases cmpLe_swap_or (timeCmp a b) with h | h
  · simp [timeLe, h]
  · rw [timeCmp_swap] at h
    simp [timeLe, h]

theorem sumLe_trans {a b c : ItemSummary} (h1 : sumLe a b = true)
    (h2 : sumLe b c = true) : sumLe a c = true :=
  cmpLe_trans_of (fun _ _ => keyCmp_eq_iff)
    (fun ha hb => keyCmp_lt_trans ha hb) h1 h2

theorem timeLe_trans {a b c : ItemSummary} (h1 : timeLe a b = true)
    (h2 : timeLe b c = true) : timeLe a c = true :=
  cmpLe_trans_of (fun _ _ => keyCmp_eq_iff)
    (fun ha hb => keyCmp_lt_trans ha hb) h1 h2

theorem insertBy_perm (le : ItemSummary → ItemSummary → Bool) (a : ItemSummary) :
    ∀ l, List.Perm (insertBy le a l) (a :: l)
  | [] => by simp [insertBy]
  | b :: l => by
    simp only [insertBy]
    by_cases h : le a b = true
    · rw [if_pos h]
    · rw [if_neg h]
      exact ((insertBy_perm le a l).cons b).trans (List.Perm.swap a b l)

theorem sortBy_perm (le : ItemSummary → ItemSummary → Bool) :
    ∀ l, List.Perm (sortBy le l) l
  | [] => by simp [sortBy]
  | a :: l => by
    simp only [sortBy]
    exact (insertBy_perm le a (sortBy le l)).trans ((sortBy_perm le l).cons a)

theorem insertBy_sorted (le : ItemSummary → ItemSummary → Bool)
    (htot : ∀ x y, (le x y || le y x) = true)
    (htr : ∀ {x y z}, le x y = true → le y z = true → le x z = true)
    (a : ItemSummary) :
    ∀ {l}, l.Pairwise (fun x y => le x y = true) →
      (insertBy le a l).Pairwise (fun x y => le x y = true) := by
  intro l
  induction l with
  | nil =>
    intro _
    simp [insertBy]
  | cons b l ih =>
    intro hl
    rw [List.pairwise_cons] at hl
    obtain ⟨hb, hl'⟩ := hl
    simp only [insertBy]
    by_cases h : le a b = true
    · rw [if_pos h]
      rw [List.pairwise_cons]
      refine ⟨?_, ?_⟩
      · intro y hy
        rcases List.mem_cons.mp hy with rfl | hy'
        · exact h
        · exact htr h (hb y hy')
      · rw [List.pairwise_cons]
        exact ⟨hb, hl'⟩
    · rw [if_neg h]
      have hf : le a b = false := by
        cases hx : le a b
        · rfl
        · exact absurd hx h
      have hba : le b a = true := by
        have htot' := htot a b
        rw [hf] at htot'
        simpa using htot'
      rw [List.pairwise_cons]
      refine ⟨?_, ih hl'⟩
      intro y hy
      have hy' := (insertBy_perm le a l).mem_iff.mp hy
      rcases List.mem_cons.mp hy' with rfl | hyl
      · exact hba
      · exact hb y hyl

theorem sortBy_sorted (le : ItemSummary → ItemSummary → Bool)
    (htot : ∀ x y, (le x y || le y x) = true)
    (htr : ∀ {x y z}, le x y = true → le y z = true → le x z = true) :
    ∀ l, (sortBy le l).Pairwise (fun x y => le x y = true)
  | [] => by simp [sortBy]
  | a :: l => by
    simp only [sortBy]
    exact insertBy_sorted le htot htr a (sortBy_sorted le htot htr l)

theorem canonSort_perm (l : List ItemSummary) : List.Perm (canonSort l) l :=
  sortBy_perm sumLe l

theorem canonSort_sorted (l : List ItemSummary) :
    (canonSort l).Pairwise (fun x y => sumLe x y = true) :=
  sortBy_sorted sumLe sumLe_total (fun h1 h2 => sumLe_trans h1 h2) l

theorem sortByTime_perm (l : List ItemSummary) : List.Perm (sortByTime l) l :=
  sortBy_perm timeLe l

theorem sortByTime_sorted (l : List ItemSummary) :
    (sortByTime l).Pairwise (fun x y => timeLe x y = true) :=
  sortBy_sorted timeLe timeLe_total (fun h1 h2 => timeLe_trans h1 h2) l

theorem mem_canonSort {x : ItemSummary} {l : List ItemSummary} :
    x ∈ canonSort l ↔ x ∈ l :=
  (canonSort_perm l).mem_iff

theorem mem_sortByTime {x : ItemSummary} {l : List ItemSummary} :
    x ∈ sortByTime l ↔ x ∈ l :=
  (sortByTime_perm l).mem_iff

theorem timeLe_occur {a b : ItemSummary} (h : timeLe a b = true) :
    a.occurred_at ≤ b.occurred_at := by
  unfold timeLe timeCmp timeKey at h
  simp only [cmpList] at h
  cases hn : natCmp a.occurred_at b.occurred_at with
  | lt => exact Nat.le_of_lt (natCmp_lt_iff.mp hn)
  | eq => exact Nat.le_of_eq (natCmp_eq_iff.mp hn)
  | gt =>
    rw [hn] at h
    simp [cmpLe] at h

theorem sumLe_decomp {a b : ItemSummary} (h : sumLe a b = true) :
    strCmp a.account_label b.account_label = Ordering.lt
    ∨ (a.account_label = b.account_label ∧ a.occurred_at ≤ b.occurred_at) := by
  unfold sumLe sumCmp sumKey at h
  simp only [cmpList] at h
  cases hacc : cmpList natCmp (natsOf a.account_label) (natsOf b.account_label) with
  | lt => exact Or.inl hacc
  | gt =>
    rw [hacc] at h
    simp [cmpLe] at h
  | eq =>
    have heqacc : a.account_label = b.account_label :=
      natsOf_inj (natListCmp_eq_iff.mp hacc)
    rw [hacc] at h
    refine Or.inr ⟨heqacc, ?_⟩
    cases hn : natCmp a.occurred_at b.occurred_at with
    | lt => exact Nat.le_of_lt (natCmp_lt_iff.mp hn)
    | eq => exact Nat.le_of_eq (natCmp_eq_iff.mp hn)
    | gt =>
      rw [hn] at h
      simp [cmpLe] at h

theorem keyPresent_iff {rows : List SeenItem} {r : SeenItem} :
    keyPresent rows r = true ↔ ∃ q ∈ rows, q.id = r.id ∧ q.source = r.source := by
  simp [keyPresent, List.any_eq_true]

theorem hasSeen_iff {st : StoreState} {id source : String} :
    hasSeen st id source = true ↔
      ∃ r ∈ st.seen, r.id = id ∧ r.source = source := by
  simp [hasSeen, List.any_eq_true]

theorem seenFold_mem {batch : List SeenItem} :
    ∀ {acc : List SeenItem} {x : SeenItem}, x ∈ acc →
      x ∈ batch.foldl
        (fun acc r => if keyPresent acc r then acc else acc ++ [r]) acc := by
  induction batch with
  | nil => intro acc x hx; exact hx
  | cons b batch ih =>
    intro acc x hx
    simp only [List.foldl_cons]
    by_cases h : keyPresent acc b = true
    · rw [if_pos h]
      exact ih hx
    · rw [if_neg h]
      exact ih (List.mem_append_left _ hx)

theorem seenFold_keyPresent_mono {batch : List SeenItem} {acc : List SeenItem}
    {r : SeenItem} (h : keyPresent acc r = true) :
    keyPresent
      (batch.foldl (fun acc r => if keyPresent acc r then acc else acc ++ [r]) acc)
      r = true := by
  rw [keyPresent_iff] at h ⊢
  obtain ⟨q, hq, hkey⟩ := h
  exact ⟨q, seenFold_mem hq, hkey⟩

theorem seenFold_batch {batch : List SeenItem} :
    ∀ {acc : List SeenItem} {r : SeenItem}, r ∈ batch →
      keyPresent
        (batch.foldl (fun acc r => if keyPresent acc r then acc else acc ++ [r]) acc)
        r = true := by
  induction batch with
  | nil => intro acc r hr; cases hr
  | cons b batch ih =>
    intro acc r hr
    simp only [List.foldl_cons]
    rcases List.mem_cons.mp hr with rfl | hr'
    · by_cases h : keyPresent acc r = true
      · rw [if_pos h]
        exact seenFold_keyPresent_mono h
      · rw [if_neg h]
        refine seenFold_keyPresent_mono ?_
        rw [keyPresent_iff]
        exact ⟨r, List.mem_append_right _ (List.mem_singleton.mpr rfl), rfl, rfl⟩
    · by_cases h : keyPresent acc b = true
      · rw [if_pos h]
        exact ih hr'
      · rw [if_neg h]
        exact ih hr'

theorem seenFold_inv {batch : List SeenItem} :
    ∀ {acc : List SeenItem} {r : SeenItem},
      keyPresent
        (batch.foldl (fun acc r => if keyPresent acc r then acc else acc ++ [r]) acc)
        r = true →
      keyPresent acc r = true ∨ ∃ b ∈ batch, b.id = r.id ∧ b.source = r.source := by
  induction batch with
  | nil => intro acc r h; exact Or.inl h
  | cons b batch ih =>
    intro acc r h
    simp only [List.foldl_cons] at h
    by_cases hb : keyPresent acc b = true
    · rw [if_pos hb] at h
      rcases ih h with h' | ⟨q, hq, hkey⟩
      · exact Or.inl h'
      · exact Or.inr ⟨q, List.mem_cons_of_mem _ hq, hkey⟩
    · rw [if_neg hb] at h
      rcases ih h with h' | ⟨q, hq, hkey⟩
      · rw [keyPresent_iff] at h'
        obtain ⟨q, hq, hkey⟩ := h'
        rcases List.mem_append.mp hq with hq' | hq'
        · exact Or.inl (keyPresent_iff.mpr ⟨q, hq', hkey⟩)
        · rcases List.mem_singleton.mp hq' with rfl
          exact Or.inr ⟨q, List.mem_cons_self _ _, hkey⟩
      · exact Or.inr ⟨q, List.mem_cons_of_mem _ hq, hkey⟩

theorem seenFold_pairwise {batch : List SeenItem} :
    ∀ {acc : List SeenItem},
      acc.Pairwise (fun a b => ¬(a.id = b.id ∧ a.source = b.source)) →
      (batch.foldl (fun acc r => if keyPresent acc r then acc else acc ++ [r]) acc).Pairwise
        (fun a b => ¬(a.id = b.id ∧ a.source = b.source)) := by
  induction batch with
  | nil => intro acc h; exact h
  | cons b batch ih =>
    intro acc h
    simp only [List.foldl_cons]
    by_cases hb : keyPresent acc b = true
    · rw [if_pos hb]
      exact ih h
    · rw [if_neg hb]
      refine ih ?_
      rw [List.pairwise_append]
      refine ⟨h, List.pairwise_singleton _ _, ?_⟩
      intro a ha b' hb'
      rcases List.mem_singleton.mp hb' with rfl
      intro hkey
      exact hb (keyPresent_iff.mpr ⟨a, ha, hkey⟩)

theorem hasSeen_keyPresent {st : StoreState} {id source : String} {t : Nat} :
    hasSeen st id source =
      keyPresent st.seen { id := id, source := source, first_seen_at := t } := by
  simp [hasSeen, keyPresent]

theorem hasSeen_markSeen_mono {st : StoreState} {batch : List SeenItem}
    {id source : String} (h : hasSeen st id source = true) :
    hasSeen (markSeen st batch) id source = true := by
  rw [hasSeen_keyPresent (t := 0)] at h ⊢
  exact seenFold_keyPresent_mono h

theorem hasSeen_markSeen_batch {st : StoreState} {batch : List SeenItem}
    {r : SeenItem} (h : r ∈ batch) :
    hasSeen (markSeen st batch) r.id r.source = true := by
  rw [hasSeen_iff]
  have := @seenFold_batch batch st.seen r h
  rw [keyPresent_iff] at this
  obtain ⟨q, hq, hkey⟩ := this
  exact ⟨q, hq, hkey⟩

theorem hasSeen_markSeen_inv {st : StoreState} {batch : List SeenItem}
    {id source : String}
    (h : hasSeen (markSeen st batch) id source = true) :
    hasSeen st id source = true ∨ ∃ b ∈ batch, b.id = id ∧ b.source = source := by
  rw [hasSeen_keyPresent (t := 0)] at h
  rcases seenFold_inv h with h' | h'
  · rw [← hasSeen_keyPresent (t := 0)] at h'
    exact Or.inl h'
  · exact Or.inr h'

theorem mem_resetSeen {st : StoreState} {source : String} {r : SeenItem} :
    r ∈ (resetSeen st source).1.seen ↔ r ∈ st.seen ∧ r.source ≠ source := by
  simp [resetSeen, List.mem_filter]

theorem hasSeen_resetSeen_other {st : StoreState} {source' id source : String}
    (hne : source ≠ source') (h : hasSeen st id source = true) :
    hasSeen (resetSeen st source').1 id source = true := by
  rw [hasSeen_iff] at h ⊢
  obtain ⟨r, hr, hid, hsrc⟩ := h
  exact ⟨r, mem_resetSeen.mpr ⟨hr, by rw [hsrc]; exact hne⟩, hid, hsrc⟩

theorem mem_freshOf {cfg : RunConfig} {orc : RunOracles} {st : StoreState}
    {it : CandidateItem} (h : it ∈ freshOf cfg orc st) :
    hasSeen st it.id it.source = false ∧ it ∈ fetchItemsOf cfg orc := by
  unfold freshOf dedupStep at h
  simp only [List.mem_filter] at h
  exact ⟨by simpa using h.2, h.1⟩

theorem summarizeItem_id (f : Nat → Option String) (it : CandidateItem) :
    (summarizeItem f it).item_id = it.id := by
  unfold summarizeItem
  cases retryCall f <;> rfl

theorem summarizeItem_source (f : Nat → Option String) (it : CandidateItem) :
    (summarizeItem f it).source = it.source := by
  unfold summarizeItem
  cases retryCall f <;> rfl

theorem mem_summariesOf {cfg : RunConfig} {orc : RunOracles} {st : StoreState}
    {s : ItemSummary} (h : s ∈ summariesOf cfg orc st) :
    ∃ it ∈ freshOf cfg orc st, s = summarizeItem (orc.llm it) it := by
  unfold summariesOf summarizeAll at h
  simp only [List.mem_map] at h
  obtain ⟨it, hit, hs⟩ := h
  exact ⟨it, hit, hs.symm⟩

theorem splitUntilFit_append (fits : List ItemSummary → Bool) :
    ∀ l, (splitUntilFit fits l).1 ++ (splitUntilFit fits l).2 = l
  | [] => rfl
  | x :: rest => by
    simp only [splitUntilFit]
    by_cases h : fits (x :: rest) = true
    · rw [if_pos h]
      rfl
    · rw [if_neg h]
      simp only [List.cons_append]
      rw [splitUntilFit_append fits rest]

theorem splitUntilFit_kept_subset {fits : List ItemSummary → Bool}
    {l : List ItemSummary} {x : ItemSummary}
    (h : x ∈ (splitUntilFit fits l).2) : x ∈ l := by
  rw [← splitUntilFit_append fits l]
  exact List.mem_append_right _ h

theorem splitUntilFit_dropped_subset {fits : List ItemSummary → Bool}
    {l : List ItemSummary} {x : ItemSummary}
    (h : x ∈ (splitUntilFit fits l).1) : x ∈ l := by
  rw [← splitUntilFit_append fits l]
  exact List.mem_append_left _ h

theorem splitUntilFit_rel {fits : List ItemSummary → Bool}
    {l : List ItemSummary}
    (hs : l.Pairwise (fun x y => timeLe x y = true))
    {a b : ItemSummary} (ha : a ∈ (splitUntilFit fits l).1)
    (hb : b ∈ (splitUntilFit fits l).2) : timeLe a b = true := by
  rw [← splitUntilFit_append fits l] at hs
  exact (List.pairwise_append.mp hs).2.2 a ha b hb

theorem mem_firstPerAccountAux {seen : List String} :
    ∀ {l : List ItemSummary} {b : ItemSummary},
      b ∈ firstPerAccountAux seen l → b ∈ l := by
  intro l
  induction l generalizing seen with
  | nil => intro b h; cases h
  | cons x rest ih =>
    intro b h
    simp only [firstPerAccountAux] at h
    by_cases hx : x.account_label ∈ seen
    · rw [if_pos hx] at h
      exact List.mem_cons_of_mem _ (ih h)
    · rw [if_neg hx] at h
      rcases List.mem_cons.mp h with rfl | h'
      · exact List.mem_cons_self _ _
      · exact List.mem_cons_of_mem _ (ih h')

theorem firstPerAccountAux_notin {seen : List String} :
    ∀ {l : List ItemSummary} {b : ItemSummary},
      b ∈ firstPerAccountAux seen l → b.account_label ∉ seen := by
  intro l
  induction l generalizing seen with
  | nil => intro b h; cases h
  | cons x rest ih =>
    intro b h
    simp only [firstPerAccountAux] at h
    by_cases hx : x.account_label ∈ seen
    · rw [if_pos hx] at h
      exact ih h
    · rw [if_neg hx] at h
      rcases List.mem_cons.mp h with rfl | h'
      · exact hx
      · intro hc
        exact ih h' (List.mem_cons_of_mem _ hc)

theorem firstPerAccountAux_covers {seen : List String} :
    ∀ {l : List ItemSummary} {x : ItemSummary},
      x ∈ l → x.account_label ∉ seen →
      ∃ y ∈ firstPerAccountAux seen l, y.account_label = x.account_label := by
  intro l
  induction l generalizing seen with
  | nil => intro x h; cases h
  | cons z rest ih =>
    intro x hx hns
    simp only [firstPerAccountAux]
    by_cases hz : z.account_label ∈ seen
    · rw [if_pos hz]
      rcases List.mem_cons.mp hx with hxz | hx'
      · rw [hxz] at hns
        exact absurd hz hns
      · exact ih hx' hns
    · rw [if_neg hz]
      rcases List.mem_cons.mp hx with hxz | hx'
      · refine ⟨z, List.mem_cons_self _ _, ?_⟩
        rw [hxz]
      · by_cases hsame : x.account_label = z.account_label
        · exact ⟨z, List.mem_cons_self _ _, hsame.symm⟩
        · have hns' : x.account_label ∉ z.account_label :: seen := by
            intro hc
            rcases List.mem_cons.mp hc with hc' | hc'
            · exact hsame hc'
            · exact hns hc'
          obtain ⟨y, hy, hacc⟩ := ih hx' hns'
          exact ⟨y, List.mem_cons_of_mem _ hy, hacc⟩

theorem firstPerAccountAux_max {seen : List String} :
    ∀ {l : List ItemSummary},
      l.Pairwise (fun p q => timeLe q p = true) →
      ∀ {b : ItemSummary}, b ∈ firstPerAccountAux seen l →
      ∀ {y : ItemSummary}, y ∈ l → y.account_label = b.account_label →
      y.occurred_at ≤ b.occurred_at := by
  intro l
  induction l generalizing seen with
  | nil => intro _ b hb; cases hb
  | cons x rest ih =>
    intro hp b hb y hy hacc
    rw [List.pairwise_cons] at hp
    obtain ⟨hx, hp'⟩ := hp
    simp only [firstPerAccountAux] at hb
    by_cases hxs : x.account_label ∈ seen
    · rw [if_pos hxs] at hb
      rcases List.mem_cons.mp hy with rfl | hy'
      · exfalso
        have := firstPerAccountAux_notin hb
        rw [← hacc] at this
        exact this hxs
      · exact ih hp' hb hy' hacc
    · rw [if_neg hxs] at hb
      rcases List.mem_cons.mp hb with rfl | hb'
      · rcases List.mem_cons.mp hy with rfl | hy'
        · exact Nat.le_refl _
        · exact timeLe_occur (hx y hy')
      · rcases List.mem_cons.mp hy with rfl | hy'
        · exfalso
          have := firstPerAccountAux_notin hb'
          rw [← hacc] at this
          exact this (List.mem_cons_self _ _)
        · exact ih hp' hb' hy' hacc

theorem truncKept_subset {budget : Nat} {summaries : List ItemSummary}
    {x : ItemSummary} (h : x ∈ (truncateByBudget budget summaries).1) :
    x ∈ summaries := by
  unfold truncateByBudget at h
  split_ifs at h with h1 h2
  · exact mem_sortByTime.mp h
  · simp only [List.mem_filter] at h
    exact mem_sortByTime.mp h.1
  · exact mem_sortByTime.mp (splitUntilFit_kept_subset h)

theorem truncDropped_subset {budget : Nat} {summaries : List ItemSummary}
    {x : ItemSummary} (h : x ∈ (truncateByBudget budget summaries).2) :
    x ∈ summaries := by
  unfold truncateByBudget at h
  split_ifs at h with h1 h2
  · cases h
  · have hx := splitUntilFit_dropped_subset h
    simp only [extrasOf, List.mem_filter] at hx
    exact mem_sortByTime.mp hx.1
  · exact mem_sortByTime.mp (splitUntilFit_dropped_subset h)

theorem hasSeen_setLastRun {st : StoreState} {t : Nat} {id source : String} :
    hasSeen (setLastRun st t) id source = hasSeen st id source := rfl

theorem runOnce_report_eq (cfg : RunConfig) (orc : RunOracles) (st : StoreState) :
    (runOnce cfg orc st).report = none
    ∨ (runOnce cfg orc st).report = some (runReport cfg orc st) := by
  unfold runOnce
  split_ifs <;> simp

theorem runOnce_store_cases (cfg : RunConfig) (orc : RunOracles) (st : StoreState) :
    (runOnce cfg orc st).store = st
    ∨ (runOnce cfg orc st).store =
        setLastRun (markSeen st (runBatch cfg orc st)) cfg.now := by
  unfold runOnce
  split_ifs <;> simp

theorem hasSeen_runOnce_mono {cfg : RunConfig} {orc : RunOracles} {st : StoreState}
    {id source : String} (h : hasSeen st id source = true) :
    hasSeen (runOnce cfg orc st).store id source = true := by
  rcases runOnce_store_cases cfg orc st with hs | hs
  · rw [hs]
    exact h
  · rw [hs, hasSeen_setLastRun]
    exact hasSeen_markSeen_mono h

theorem runReport_lines_kept {cfg : RunConfig} {orc : RunOracles} {st : StoreState}
    {l : ItemSummary} (h : l ∈ (runReport cfg orc st).lines) :
    l ∈ runKept cfg orc st := by
  unfold runReport mkReport at h
  exact mem_canonSort.mp h

theorem runReport_excludes {cfg : RunConfig} {orc : RunOracles} {st : StoreState}
    {id source : String} (hseen : hasSeen st id source = true) :
    ∀ l ∈ (runReport cfg orc st).lines, ¬(l.item_id = id ∧ l.source = source) := by
  intro l hl ⟨hid, hsrc⟩
  have hk := runReport_lines_kept hl
  have hsum : l ∈ summariesOf cfg orc st := truncKept_subset hk
  obtain ⟨it, hit, rfl⟩ := mem_summariesOf hsum
  have hids := summarizeItem_id (orc.llm it) it
  have hsrcs := summarizeItem_source (orc.llm it) it
  rw [hids] at hid
  rw [hsrcs] at hsrc
  have := (mem_freshOf hit).1
  rw [hid, hsrc] at this
  rw [hseen] at this
  cases this

theorem runOnce_committed_lines {cfg : RunConfig} {orc : RunOracles}
    {st : StoreState} (hdel : deliver orc.primaryOk orc.secondary = true)
    (hstore : orc.storeOk = true) :
    (runOnce cfg orc st).report = some (runReport cfg orc st)
    ∧ ∀ l ∈ (runReport cfg orc st).lines,
        hasSeen (runOnce cfg orc st).store l.item_id l.source = true := by
  constructor
  · unfold runOnce
    rw [hdel, hstore]
    simp
  · intro l hl
    have hk := runReport_lines_kept hl
    have hb : ({ id := l.item_id, source := l.source, first_seen_at := cfg.now } : SeenItem)
        ∈ runBatch cfg orc st := by
      unfold runBatch
      exact List.mem_map_of_mem _ hk
    have hst : (runOnce cfg orc st).store =
        setLastRun (markSeen st (runBatch cfg orc st)) cfg.now := by
      unfold runOnce
      rw [hdel, hstore]
      simp
    rw [hst, hasSeen_setLastRun]
    exact hasSeen_markSeen_batch hb

/-- C1: when delivery of the composite report fails on the primary channel
and the secondary channel also fails or is not configured, the run is
marked failed, no report is delivered, and the State Store is left
completely unchanged — so every item of the run remains eligible for the
next invocation. -/
theorem C1_delivery_failure_no_commit (cfg : RunConfig) (orc : RunOracles)
    (st : StoreState) (hp : orc.primaryOk = false)
    (hs : orc.secondary = none ∨ orc.secondary = some false) :
    (runOnce cfg orc st).status = RunStatus.failed
    ∧ (runOnce cfg orc st).store = st
    ∧ (runOnce cfg orc st).report = none := by
  have hd : deliver orc.primaryOk orc.secondary = false := by
    rcases hs with h | h <;> simp [deliver, hp, h]
  unfold runOnce
  rw [hd]
  simp

/-- Witness for C1: a run whose both channels fail leaves the empty store
untouched. -/
theorem C1_delivery_failure_no_commit_witness :
    demoOrcFailDelivery.primaryOk = false
    ∧ (demoOrcFailDelivery.secondary = none
        ∨ demoOrcFailDelivery.secondary = some false)
    ∧ (runOnce demoCfg demoOrcFailDelivery emptyStore).status = RunStatus.failed
    ∧ (runOnce demoCfg demoOrcFailDelivery emptyStore).store = emptyStore
    ∧ (runOnce demoCfg demoOrcFailDelivery emptyStore).report = none := by
  obtain ⟨h1, h2, h3⟩ :=
    C1_delivery_failure_no_commit demoCfg demoOrcFailDelivery emptyStore rfl
      (Or.inr rfl)
  exact ⟨rfl, Or.inr rfl, h1, h2, h3⟩

theorem fetchAll_fst (f : String → FetchResult) :
    ∀ sources : List String, (fetchAll sources f).map (fun e => e.1) = sources
  | [] => rfl
  | s :: rest => by
    have ih := fetchAll_fst f rest
    simp only [fetchAll] at ih ⊢
    simp only [List.map_cons]
    rw [ih]
    cases hf : f s with
    | ok its => simp
    | err m => simp

theorem fetchAll_mem_err {sources : List String} {f : String → FetchResult}
    {s m} (hs : s ∈ sources) (hf : f s = FetchResult.err m) :
    (s, [], some m) ∈ fetchAll sources f := by
  unfold fetchAll
  have := List.mem_map_of_mem
    (fun s => match f s with
      | FetchResult.ok items => (s, items, none)
      | FetchResult.err m => (s, ([] : List CandidateItem), some m)) hs
  simp only [hf] at this
  exact this

theorem fetchAll_mem_ok {sources : List String} {f : String → FetchResult}
    {s its} (hs : s ∈ sources) (hf : f s = FetchResult.ok its) :
    (s, its, none) ∈ fetchAll sources f := by
  unfold fetchAll
  have := List.mem_map_of_mem
    (fun s => match f s with
      | FetchResult.ok items => (s, items, none)
      | FetchResult.err m => (s, ([] : List CandidateItem), some m)) hs
  simp only [hf] at this
  exact this

/-- C4: a fetch error for one source never prevents the others: the Source
Fetcher returns a mapping defined on every configured source, failing
sources map to an error entry and non-failing ones to their items; on a
delivered run every failing source contributes a footer note to the report
while the report's items are committed. -/
theorem C4_fault_isolation (sources : List String) (f : String → FetchResult)
    (cfg : RunConfig) (orc : RunOracles) (st : StoreState) :
    ((fetchAll sources f).map (fun e => e.1) = sources)
    ∧ (∀ s ∈ sources, ∀ m, f s = FetchResult.err m →
        (s, [], some m) ∈ fetchAll sources f)
    ∧ (∀ s ∈ sources, ∀ its, f s = FetchResult.ok its →
        (s, its, none) ∈ fetchAll sources f)
    ∧ (deliver orc.primaryOk orc.secondary = true →
        ∃ rep, (runOnce cfg orc st).report = some rep
          ∧ (∀ s ∈ cfg.sources, ∀ m, orc.fetch s = FetchResult.err m →
              (s, m) ∈ rep.sourceErrors)
          ∧ (orc.storeOk = true → ∀ l ∈ rep.lines,
              hasSeen (runOnce cfg orc st).store l.item_id l.source = true)) := by
  refine ⟨fetchAll_fst f sources, ?_, ?_, ?_⟩
  · intro s hs m hf
    exact fetchAll_mem_err hs hf
  · intro s hs its hf
    exact fetchAll_mem_ok hs hf
  · intro hdel
    refine ⟨runReport cfg orc st, ?_, ?_, ?_⟩
    · rcases runOnce_report_eq cfg orc st with h | h
      · exfalso
        unfold runOnce at h
        rw [hdel] at h
        by_cases hst : orc.storeOk = true
        · rw [hst] at h
          simp at h
        · rw [Bool.not_eq_true] at hst
          rw [hst] at h
          simp at h
      · exact h
    · intro s hs m hf
      show (s, m) ∈ (runReport cfg orc st).sourceErrors
      have hmem : (s, [], some m) ∈ fetchedOf cfg orc := fetchAll_mem_err hs hf
      unfold runReport mkReport
      show (s, m) ∈ fetchErrorsOf cfg orc
      unfold fetchErrorsOf
      rw [List.mem_filterMap]
      exact ⟨(s, [], some m), hmem, rfl⟩
    · intro hstore
      exact (runOnce_committed_lines hdel hstore).2

/-- Witness for C4: two sources, one failing, on a delivered run. -/
theorem C4_fault_isolation_witness :
    (deliver demoOrc.primaryOk demoOrc.secondary = true)
    ∧ ((fetchAll ["email", "rss"] (fun _ => FetchResult.err "down")).map
        (fun e => e.1) = ["email", "rss"])
    ∧ ((("rss" : String), ([] : List CandidateItem), some "down")
        ∈ fetchAll ["email", "rss"] (fun _ => FetchResult.err "down"))
    ∧ (∃ rep, (runOnce demoCfg demoOrc emptyStore).report = some rep
        ∧ (∀ s ∈ demoCfg.sources, ∀ m, demoOrc.fetch s = FetchResult.err m →
            (s, m) ∈ rep.sourceErrors)
        ∧ (demoOrc.storeOk = true → ∀ l ∈ rep.lines,
            hasSeen (runOnce demoCfg demoOrc emptyStore).store
              l.item_id l.source = true)) := by
  obtain ⟨h1, h2, h3, h4⟩ :=
    C4_fault_isolation ["email", "rss"] (fun _ => FetchResult.err "down")
      demoCfg demoOrc emptyStore
  refine ⟨rfl, h1, h2 "rss" (by simp) "down" rfl, h4 rfl⟩

/-- C5: the Summarizer emits exactly one ItemSummary per surviving item —
one output per input position, never dropping any; when the backend fails
after the bounded retries the summary has ok false and its text is the
truncated raw excerpt; and on a delivered, committed run every reported
item, ok-false fallbacks included, is marked seen. -/
theorem C5_summarizer_never_drops (llm : CandidateItem → Nat → Option String)
    (items : List CandidateItem) (cfg : RunConfig) (orc : RunOracles)
    (st : StoreState) :
    ((summarizeAll llm items).length = items.length)
    ∧ (∀ i : Nat, (summarizeAll llm items)[i]? =
        (items[i]?).map (fun it => summarizeItem (llm it) it))
    ∧ (∀ it : CandidateItem,
        (summarizeItem (llm it) it).item_id = it.id
        ∧ (summarizeItem (llm it) it).source = it.source)
    ∧ (∀ it : CandidateItem, retryCall (llm it) = none →
        (summarizeItem (llm it) it).ok = false
        ∧ (summarizeItem (llm it) it).summary_text = truncateExcerpt it.body_excerpt)
    ∧ (deliver orc.primaryOk orc.secondary = true → orc.storeOk = true →
        ∃ rep, (runOnce cfg orc st).report = some rep
          ∧ ∀ l ∈ rep.lines,
              hasSeen (runOnce cfg orc st).store l.item_id l.source = true) := by
  refine ⟨?_, ?_, ?_, ?_, ?_⟩
  · simp [summarizeAll]
  · intro i
    simp [summarizeAll]
  · intro it
    exact ⟨summarizeItem_id (llm it) it, summarizeItem_source (llm it) it⟩
  · intro it hfail
    constructor
    · simp [summarizeItem, hfail]
    · simp [summarizeItem, hfail]
  · intro hdel hstore
    obtain ⟨hrep, hcom⟩ := @runOnce_committed_lines cfg orc st hdel hstore
    exact ⟨runReport cfg orc st, hrep, hcom⟩

/-- Witness for C5: a failing backend for one concrete item, in a
delivered committed run. -/
theorem C5_summarizer_never_drops_witness :
    (deliver demoOrc.primaryOk demoOrc.secondary = true)
    ∧ (demoOrc.storeOk = true)
    ∧ (retryCall (fun _ => (none : Option String)) = none)
    ∧ ((summarizeAll (fun _ _ => none) [demoItem]).length = 1)
    ∧ ((summarizeItem (fun _ => none) demoItem).ok = false
        ∧ (summarizeItem (fun _ => none) demoItem).summary_text =
            truncateExcerpt demoItem.body_excerpt)
    ∧ (∃ rep, (runOnce demoCfg demoOrc emptyStore).report = some rep
        ∧ ∀ l ∈ rep.lines,
            hasSeen (runOnce demoCfg demoOrc emptyStore).store
              l.item_id l.source = true) := by
  obtain ⟨h1, h2, h3, h4, h5⟩ :=
    C5_summarizer_never_drops (fun _ _ => none) [demoItem] demoCfg demoOrc emptyStore
  exact ⟨rfl, rfl, rfl, h1, h4 demoItem rfl, h5 rfl rfl⟩

theorem applyOps_exclude {id src : String} :
    ∀ (ops : List PipeOp) (st : StoreState),
      hasSeen st id src = true →
      (∀ s, PipeOp.resetOp s ∈ ops → s ≠ src) →
      ∀ rep ∈ (applyOps st ops).2, ∀ l ∈ rep.lines,
        ¬(l.item_id = id ∧ l.source = src)
  | [], st, hseen, hnr => by
    intro rep hrep
    cases hrep
  | PipeOp.runOp cfg orc :: ops, st, hseen, hnr => by
    intro rep hrep
    simp only [applyOps] at hrep
    rcases runOnce_report_eq cfg orc st with h | h
    · rw [h] at hrep
      simp only [List.nil_append] at hrep
      exact applyOps_exclude ops _ (hasSeen_runOnce_mono hseen)
        (fun s hs => hnr s (List.mem_cons_of_mem _ hs)) rep hrep
    · rw [h] at hrep
      simp only [List.singleton_append, List.mem_cons] at hrep
      rcases hrep with rfl | hrep
      · exact runReport_excludes hseen
      · exact applyOps_exclude ops _ (hasSeen_runOnce_mono hseen)
          (fun s hs => hnr s (List.mem_cons_of_mem _ hs)) rep hrep
  | PipeOp.resetOp s :: ops, st, hseen, hnr => by
    intro rep hrep
    simp only [applyOps] at hrep
    have hsne : s ≠ src := hnr s (List.mem_cons_self _ _)
    exact applyOps_exclude ops _ (hasSeen_resetSeen_other (Ne.symm hsne) hseen)
      (fun s' hs' => hnr s' (List.mem_cons_of_mem _ hs')) rep hrep

/-- C2: an item committed once is never re-included in any later run's
report unless resetSeen was invoked for its source; resetSeen removes
exactly the rows of its source label and keeps every row of every other
source; and the Deduplicator is read-only against the store. -/
theorem C2_dedup_correctness (id src : String) (st : StoreState)
    (ops : List PipeOp) (hseen : hasSeen st id src = true)
    (hnoreset : ∀ s, PipeOp.resetOp s ∈ ops → s ≠ src) :
    (∀ rep ∈ (applyOps st ops).2, ∀ l ∈ rep.lines,
        ¬(l.item_id = id ∧ l.source = src))
    ∧ (∀ (st' : StoreState) (src' : String) (r : SeenItem),
        r ∈ (resetSeen st' src').1.seen ↔ r ∈ st'.seen ∧ r.source ≠ src')
    ∧ (∀ (st' : StoreState) (items : List CandidateItem),
        (dedupStep st' items).2 = st') := by
  refine ⟨applyOps_exclude ops st hseen hnoreset, ?_, ?_⟩
  · intro st' src' r
    exact mem_resetSeen
  · intro st' items
    rfl

/-- Witness for C2: a store that has already seen item (m1, email), run
once more through the healthy pipeline with no reset in between. -/
theorem C2_dedup_correctness_witness :
    (hasSeen seededStore "m1" "email" = true)
    ∧ (∀ rep ∈ (applyOps seededStore [PipeOp.runOp demoCfg demoOrc]).2,
        ∀ l ∈ rep.lines, ¬(l.item_id = "m1" ∧ l.source = "email")) := by
  obtain ⟨h1, h2, h3⟩ :=
    C2_dedup_correctness "m1" "email" seededStore
      [PipeOp.runOp demoCfg demoOrc] (by decide)
      (fun s hs => absurd (List.mem_singleton.mp hs)
        (fun heq => PipeOp.noConfusion heq))
  exact ⟨by decide, h1⟩

/-- C3: in jitter mode with the drawn target gap inside
[min_gap, max_gap], work never executes when less than min_gap has elapsed
since last_run; a skipped invocation produces no run outcome (hence no
fetch) and leaves the store untouched; and an invocation arriving with at
least max_gap elapsed always executes, so invocations arriving at least as
often as the drawn gap keep the spacing of executed runs within
max_gap. -/
theorem C3_jitter_bounds (g : GateCfg) (draw : Nat) (cfg : RunConfig)
    (orc : RunOracles) (st : StoreState) (lr : Nat)
    (hmin : g.minGap ≤ draw) (hmax : draw ≤ g.maxGap) :
    (st.lastRun = some lr → (invokeGated draw cfg orc st).1.isSome = true →
        g.minGap ≤ cfg.now - lr)
    ∧ ((invokeGated draw cfg orc st).1 = none →
        invokeGated draw cfg orc st = (none, st))
    ∧ (st.lastRun = some lr → g.maxGap ≤ cfg.now - lr →
        (invokeGated draw cfg orc st).1.isSome = true) := by
  refine ⟨?_, ?_, ?_⟩
  · intro hlr hex
    by_cases hg : gateOpen draw st.lastRun cfg.now = true
    · unfold gateOpen at hg
      rw [hlr] at hg
      simp at hg
      omega
    · exfalso
      unfold invokeGated at hex
      rw [if_neg hg] at hex
      simp at hex
  · intro hn
    unfold invokeGated at hn ⊢
    by_cases hg : gateOpen draw st.lastRun cfg.now = true
    · rw [if_pos hg] at hn
      simp at hn
    · rw [if_neg hg]
  · intro hlr hge
    have hg : gateOpen draw st.lastRun cfg.now = true := by
      unfold gateOpen
      rw [hlr]
      simp
      omega
    unfold invokeGated
    rw [if_pos hg]
    rfl

/-- Witness for C3 with min_gap 30, max_gap 45, a drawn gap of 40 and an
invocation 50 units after the last run. -/
theorem C3_jitter_bounds_witness :
    (30 ≤ 40) ∧ (40 ≤ 45)
    ∧ (seededGateStore.lastRun = some 50 →
        (invokeGated 40 demoCfg demoOrc seededGateStore).1.isSome = true →
        30 ≤ demoCfg.now - 50)
    ∧ ((invokeGated 40 demoCfg demoOrc seededGateStore).1 = none →
        invokeGated 40 demoCfg demoOrc seededGateStore =
          (none, seededGateStore))
    ∧ (seededGateStore.lastRun = some 50 → 45 ≤ demoCfg.now - 50 →
        (invokeGated 40 demoCfg demoOrc seededGateStore).1.isSome = true) := by
  obtain ⟨h1, h2, h3⟩ :=
    C3_jitter_bounds { minGap := 30, maxGap := 45 } 40 demoCfg demoOrc
      seededGateStore 50 (by decide) (by decide)
  exact ⟨by decide, by decide, h1, h2, h3⟩

/-- C6: markSeen commits are atomic over the whole batch — after any run
the store either equals the old store or the run committed and every
identifier of the batch is present — and in every reachable store state no
(id, source) key appears twice in seen_items. -/
theorem C6_atomic_commit_and_key_uniqueness (cfg : RunConfig)
    (orc : RunOracles) (st st' : StoreState) :
    ((runOnce cfg orc st).store = st
      ∨ ((runOnce cfg orc st).status = RunStatus.committed
         ∧ ∀ r ∈ runBatch cfg orc st,
             hasSeen (runOnce cfg orc st).store r.id r.source = true))
    ∧ (Reachable st' → goodKeys st') := by
  constructor
  · by_cases hdel : deliver orc.primaryOk orc.secondary = true
    · by_cases hst : orc.storeOk = true
      · right
        constructor
        · unfold runOnce
          rw [hdel, hst]
          simp
        · intro r hr
          have hstq : (runOnce cfg orc st).store =
              setLastRun (markSeen st (runBatch cfg orc st)) cfg.now := by
            unfold runOnce
            rw [hdel, hst]
            simp
          rw [hstq, hasSeen_setLastRun]
          exact hasSeen_markSeen_batch hr
      · left
        rw [Bool.not_eq_true] at hst
        unfold runOnce
        rw [hdel, hst]
        simp
    · left
      rw [Bool.not_eq_true] at hdel
      unfold runOnce
      rw [hdel]
      simp
  · intro hr
    induction hr with
    | init => exact List.Pairwise.nil
    | step st0 op hr0 ih =>
      cases op with
      | runOp cfg0 orc0 =>
        show goodKeys (runOnce cfg0 orc0 st0).store
        rcases runOnce_store_cases cfg0 orc0 st0 with hs | hs
        · rw [hs]
          exact ih
        · rw [hs]
          exact seenFold_pairwise ih
      | resetOp src =>
        show goodKeys (resetSeen st0 src).1
        exact List.Pairwise.sublist (List.filter_sublist _) ih

/-- Witness for C6: the healthy demo run from the empty store, and the
reachable empty store itself. -/
theorem C6_atomic_commit_and_key_uniqueness_witness :
    ((runOnce demoCfg demoOrc emptyStore).store = emptyStore
      ∨ ((runOnce demoCfg demoOrc emptyStore).status = RunStatus.committed
         ∧ ∀ r ∈ runBatch demoCfg demoOrc emptyStore,
             hasSeen (runOnce demoCfg demoOrc emptyStore).store
               r.id r.source = true))
    ∧ goodKeys emptyStore := by
  obtain ⟨h1, h2⟩ :=
    C6_atomic_commit_and_key_uniqueness demoCfg demoOrc emptyStore emptyStore
  exact ⟨h1, h2 Reachable.init⟩

/-- C7: report truncation drops the oldest items first — a dropped item is
never newer than a kept item of the same account — retains at least one
item per account whenever the budget allows the per-account
representatives, and the commit never marks anything beyond the kept
items, so truncation-dropped items stay unseen and re-eligible. -/
theorem C7_truncation_semantics (budget : Nat) (summaries : List ItemSummary)
    (cfg : RunConfig) (orc : RunOracles) (st : StoreState) :
    (∀ a ∈ (truncateByBudget budget summaries).2,
     ∀ b ∈ (truncateByBudget budget summaries).1,
       a.account_label = b.account_label → a.occurred_at ≤ b.occurred_at)
    ∧ (renderLen (mandOf summaries) ≤ budget →
       ∀ x ∈ summaries, ∃ y ∈ (truncateByBudget budget summaries).1,
         y.account_label = x.account_label)
    ∧ (∀ id src : String, hasSeen (runOnce cfg orc st).store id src = true →
        hasSeen st id src = true
        ∨ ∃ k ∈ runKept cfg orc st, k.item_id = id ∧ k.source = src) := by
  refine ⟨?_, ?_, ?_⟩
  · intro a ha b hb hacc
    unfold truncateByBudget at ha hb
    split_ifs at ha hb with h1 h2
    · exact absurd ha (by simp)
    · have ha' : a ∈ (splitUntilFit
          (fun l => decide (renderLen (mandOf summaries) + renderLen l ≤ budget))
          (extrasOf summaries)).1 := ha
      have hb' : b ∈ (sortByTime summaries).filter
          (fun x => decide (x ∈ mandOf summaries) ||
            decide (x ∈ (splitUntilFit
              (fun l => decide (renderLen (mandOf summaries) + renderLen l ≤ budget))
              (extrasOf summaries)).2)) := hb
      rcases List.mem_filter.mp hb' with ⟨hbasc, hbcond⟩
      rw [Bool.or_eq_true, decide_eq_true_iff, decide_eq_true_iff] at hbcond
      have haext := splitUntilFit_dropped_subset ha'
      rcases hbcond with hbmand | hbsplit
      · have hdesc : (sortByTime summaries).reverse.Pairwise
            (fun p q => timeLe q p = true) := by
          rw [List.pairwise_reverse]
          exact sortByTime_sorted summaries
        have hamem : a ∈ (sortByTime summaries).reverse := by
          rw [List.mem_reverse]
          have := haext
          simp only [extrasOf, List.mem_filter] at this
          exact this.1
        exact firstPerAccountAux_max hdesc hbmand hamem hacc
      · have hext : (extrasOf summaries).Pairwise (fun x y => timeLe x y = true) :=
          List.Pairwise.sublist (List.filter_sublist _) (sortByTime_sorted summaries)
        exact timeLe_occur (splitUntilFit_rel hext ha' hbsplit)
    · have ha' : a ∈ (splitUntilFit (fun l => decide (renderLen l ≤ budget))
          (sortByTime summaries)).1 := ha
      have hb' : b ∈ (splitUntilFit (fun l => decide (renderLen l ≤ budget))
          (sortByTime summaries)).2 := hb
      exact timeLe_occur (splitUntilFit_rel (sortByTime_sorted summaries) ha' hb')
  · intro hbud x hx
    unfold truncateByBudget
    split_ifs with h1
    · exact ⟨x, mem_sortByTime.mpr hx, rfl⟩
    · have hxrev : x ∈ (sortByTime summaries).reverse := by
        rw [List.mem_reverse]
        exact mem_sortByTime.mpr hx
      obtain ⟨y, hy, hacc⟩ := firstPerAccountAux_covers hxrev (List.not_mem_nil _)
      refine ⟨y, ?_, hacc⟩
      have hyasc : y ∈ sortByTime summaries := by
        have := mem_firstPerAccountAux hy
        rwa [List.mem_reverse] at this
      show y ∈ (sortByTime summaries).filter _
      apply List.mem_filter.mpr
      refine ⟨hyasc, ?_⟩
      rw [Bool.or_eq_true, decide_eq_true_iff]
      exact Or.inl hy
  · intro id src h
    rcases runOnce_store_cases cfg orc st with hs | hs
    · rw [hs] at h
      exact Or.inl h
    · rw [hs, hasSeen_setLastRun] at h
      rcases hasSeen_markSeen_inv h with h' | ⟨b, hb, hid, hsrc⟩
      · exact Or.inl h'
      · right
        unfold runBatch at hb
        obtain ⟨k, hk, rfl⟩ := List.mem_map.mp hb
        exact ⟨k, hk, hid, hsrc⟩

/-- Witness for C7: a single summary within budget is retained with its
account represented, and the demo run commits nothing beyond its kept
items. -/
theorem C7_truncation_semantics_witness :
    (renderLen (mandOf [demoSummary]) ≤ 1000)
    ∧ (∃ y ∈ (truncateByBudget 1000 [demoSummary]).1,
        y.account_label = demoSummary.account_label)
    ∧ (∀ id src : String,
        hasSeen (runOnce demoCfg demoOrc emptyStore).store id src = true →
        hasSeen emptyStore id src = true
        ∨ ∃ k ∈ runKept demoCfg demoOrc emptyStore,
            k.item_id = id ∧ k.source = src) := by
  obtain ⟨h1, h2, h3⟩ :=
    C7_truncation_semantics 1000 [demoSummary] demoCfg demoOrc emptyStore
  exact ⟨by decide, h2 (by decide) demoSummary (List.mem_singleton.mpr rfl), h3⟩

theorem sumCmp_eq_keys {a b : ItemSummary} (h : sumCmp a b = Ordering.eq) :
    a.item_id = b.item_id ∧ a.source = b.source := by
  have hk := keyCmp_eq_iff.mp h
  unfold sumKey at hk
  simp only [List.cons.injEq, and_true] at hk
  obtain ⟨h1, h2, h3, h4⟩ := hk
  exact ⟨natsOf_inj h3, natsOf_inj h4⟩

theorem canonSort_eq_of_perm {l1 l2 : List ItemSummary}
    (hperm : List.Perm l1 l2)
    (hkeys : l1.Pairwise
      (fun a b => ¬(a.item_id = b.item_id ∧ a.source = b.source))) :
    canonSort l1 = canonSort l2 := by
  have hsymm : ∀ {x y : ItemSummary},
      ¬(x.item_id = y.item_id ∧ x.source = y.source) →
      ¬(y.item_id = x.item_id ∧ y.source = x.source) := by
    intro x y hxy hc
    exact hxy ⟨hc.1.symm, hc.2.symm⟩
  have hkeys2 : l2.Pairwise
      (fun a b => ¬(a.item_id = b.item_id ∧ a.source = b.source)) :=
    (List.Perm.pairwise_iff hsymm hperm).mp hkeys
  have hlt : ∀ {l : List ItemSummary},
      l.Pairwise (fun a b => ¬(a.item_id = b.item_id ∧ a.source = b.source)) →
      (canonSort l).Pairwise (fun a b => sumCmp a b = Ordering.lt) := by
    intro l hk
    have hle := canonSort_sorted l
    have hne : (canonSort l).Pairwise
        (fun a b => ¬(a.item_id = b.item_id ∧ a.source = b.source)) :=
      (List.Perm.pairwise_iff hsymm (canonSort_perm l)).mpr hk
    refine (hle.and hne).imp ?_
    intro a b hab
    obtain ⟨hab1, hab2⟩ := hab
    cases hc : sumCmp a b with
    | lt => rfl
    | eq => exact absurd (sumCmp_eq_keys hc) hab2
    | gt =>
      exfalso
      unfold sumLe at hab1
      rw [hc] at hab1
      cases hab1
  haveI : IsAntisymm ItemSummary (fun a b => sumCmp a b = Ordering.lt) := by
    constructor
    intro a b h1 h2
    exfalso
    have hsw := sumCmp_swap a b
    rw [h1, h2] at hsw
    cases hsw
  exact List.eq_of_perm_of_sorted
    ((canonSort_perm l1).trans (hperm.trans (canonSort_perm l2).symm))
    (hlt hkeys) (hlt hkeys2)

/-- C8: the aggregate report is a deterministic function of the multiset
of summaries — any two arrival orders render character for character the
same text with the same ordered lines — and the lines are grouped by
account label with each group sorted by occurred_at ascending. -/
theorem C8_deterministic_aggregate (l1 l2 : List ItemSummary)
    (errors : List (String × String)) (hperm : List.Perm l1 l2)
    (hkeys : l1.Pairwise
      (fun a b => ¬(a.item_id = b.item_id ∧ a.source = b.source))) :
    (mkReport l1 errors).text = (mkReport l2 errors).text
    ∧ (mkReport l1 errors).lines = (mkReport l2 errors).lines
    ∧ (mkReport l1 errors).lines.Pairwise
        (fun a b => strCmp a.account_label b.account_label = Ordering.lt
          ∨ (a.account_label = b.account_label
              ∧ a.occurred_at ≤ b.occurred_at)) := by
  have hsort := canonSort_eq_of_perm hperm hkeys
  refine ⟨?_, ?_, ?_⟩
  · unfold mkReport
    simp only [hsort]
  · unfold mkReport
    simp only [hsort]
  · show (canonSort l1).Pairwise _
    exact (canonSort_sorted l1).imp (fun h => sumLe_decomp h)

/-- Witness for C8: two summaries of one account delivered in either
order produce the identical report. -/
theorem C8_deterministic_aggregate_witness :
    (List.Perm [demoSummary, demoSummary2] [demoSummary2, demoSummary])
    ∧ ([demoSummary, demoSummary2].Pairwise
        (fun a b => ¬(a.item_id = b.item_id ∧ a.source = b.source)))
    ∧ (mkReport [demoSummary, demoSummary2] []).text =
        (mkReport [demoSummary2, demoSummary] []).text
    ∧ (mkReport [demoSummary, demoSummary2] []).lines =
        (mkReport [demoSummary2, demoSummary] []).lines := by
  obtain ⟨h1, h2, h3⟩ :=
    C8_deterministic_aggregate [demoSummary, demoSummary2]
      [demoSummary2, demoSummary] []
      (List.Perm.swap demoSummary2 demoSummary []) (by decide)
  exact ⟨List.Perm.swap demoSummary2 demoSummary [], by decide, h1, h2⟩

end Pipeline

